import Mathlib

/-!
Shallow embedding of the document cache and retrieval engine of
`src/rag_system.py` (classes `DocumentStore` and `RAGSystem`), together with
the response post-processing step `QueryWindow.remove_prefix` from
`src/docwhisperar.py`.

Modelling conventions:
* Python strings are sequences of code points, so they are embedded as
  `List Char` (`PyStr`).  Python `len`, slicing and concatenation are
  `List.length`, `List.drop`/`List.take` and `++`.
* Python whitespace (for `str.split()` / `str.strip()`) is modelled by
  `Char.isWhitespace`.
* The two SQLite tables `documents` and `embeddings` are embedded as lists of
  rows ordered by insertion (rowid order, which is the order a `SELECT`
  without `ORDER BY` enumerates in SQLite); `AUTOINCREMENT` primary keys are
  modelled with explicit `next…Id` counters.
* numpy float32 values are opaque 4-byte bit patterns: a vector is a
  `List Nat` with every entry `< 2 ^ 32`; `ndarray.tobytes()` and
  `np.frombuffer(..., dtype=np.float32)` are the little-endian byte
  serialisation `vecToBytes` / `fromBuffer`.
* External collaborators (path normalisation, content hashing, mtime, the
  sentence encoder, the FAISS distance, the completion model) are parameters
  of the functions that call them, mirroring the spec's "opaque service"
  boundary.
-/

/-- Python strings as sequences of code points. -/
abbrev PyStr := List Char

/-- An embedding vector: a list of float32 bit patterns (each `< 2 ^ 32`). -/
abbrev Vec := List Nat

/-- Python `str.strip()`: remove leading and trailing whitespace. -/
def pyStrip (s : PyStr) : PyStr :=
  ((s.dropWhile Char.isWhitespace).reverse.dropWhile Char.isWhitespace).reverse

/-- Python `str.split()` with no argument: split on runs of whitespace,
discarding empty fragments. -/
def pySplit (s : PyStr) : List PyStr :=
  (List.splitOnP (fun c => c.isWhitespace) s).filter (fun w => !w.isEmpty)

/-- Python `sep.join(xs)`: concatenation with `sep` between consecutive
elements (and nothing around a singleton). -/
def pyJoin (sep : PyStr) : List PyStr → PyStr
  | [] => []
  | [x] => x
  | x :: y :: t => x ++ sep ++ pyJoin sep (y :: t)

/-- The running character count the chunking loop of
`RAGSystem.add_documents` maintains: each word contributes
`len(word) + 1` (`current_length += len(word) + 1`). -/
def weight (g : List PyStr) : Nat :=
  (g.map (fun w => w.length + 1)).sum

/-- The chunking loop of `RAGSystem.add_documents` (lines 263-278 of
`src/rag_system.py`): words are appended to `current_chunk`, the running
length is incremented by `len(word) + 1`, the chunk is flushed (as
`' '.join(current_chunk)`) once the running length reaches `chunk_size`,
and a final non-empty accumulation is flushed at the end. -/
def chunkWords (chunkSize : Nat) : List PyStr → List PyStr → Nat → List PyStr
  | [], currentChunk, _ =>
      if currentChunk.isEmpty then [] else [pyJoin [' '] currentChunk]
  | w :: ws, currentChunk, currentLength =>
      let currentChunk' := currentChunk ++ [w]
      let currentLength' := currentLength + (w.length + 1)
      if chunkSize ≤ currentLength' then
        pyJoin [' '] currentChunk' :: chunkWords chunkSize ws [] 0
      else
        chunkWords chunkSize ws currentChunk' currentLength'

/-- The full chunking step applied to one document's text: `doc.split()`
followed by the accumulation loop started with an empty chunk and zero
running length. -/
def chunkText (doc : PyStr) (chunkSize : Nat) : List PyStr :=
  chunkWords chunkSize (pySplit doc) [] 0

/-- Little-endian byte serialisation of one float32 bit pattern, as
`numpy.ndarray.tobytes` lays a float32 out. -/
def f32ToBytes (x : Nat) : List Nat :=
  [x % 256, x / 256 % 256, x / 65536 % 256, x / 16777216 % 256]

/-- `embedding.tobytes()`: the concatenated little-endian float32 bytes. -/
def vecToBytes (v : Vec) : List Nat :=
  (v.map f32ToBytes).flatten

/-- `np.frombuffer(embedding_bytes, dtype=np.float32)`: reinterpret the byte
blob as a vector of float32 bit patterns, four bytes at a time. -/
def fromBuffer : List Nat → Vec
  | b0 :: b1 :: b2 :: b3 :: rest =>
      (b0 + 256 * b1 + 65536 * b2 + 16777216 * b3) :: fromBuffer rest
  | _ => []

/-- One row of the SQLite `documents` table (`DocumentStore.init_database`):
`id INTEGER PRIMARY KEY AUTOINCREMENT, file_path, file_hash, last_modified,
processed_date, chunks` (the chunk list, stored serialised). -/
structure DocumentRow where
  id : Nat
  file_path : PyStr
  file_hash : PyStr
  last_modified : PyStr
  processed_date : PyStr
  chunks : List PyStr
deriving DecidableEq

/-- One row of the SQLite `embeddings` table: `id INTEGER PRIMARY KEY
AUTOINCREMENT, document_id, embedding BLOB, chunk_text`. -/
structure EmbeddingRow where
  id : Nat
  document_id : Nat
  embedding : List Nat
  chunk_text : PyStr
deriving DecidableEq

/-- The persistent state behind one `DocumentStore`: both tables in rowid
order, plus the two `AUTOINCREMENT` counters. -/
structure Store where
  documents : List DocumentRow
  embeddings : List EmbeddingRow
  nextDocId : Nat
  nextEmbId : Nat
deriving DecidableEq

/-- A fresh database, as `init_database` creates it. -/
def emptyStore : Store := ⟨[], [], 1, 1⟩

/-- `DocumentStore.store_document(file_path, chunks)`: normalise the path,
delete every embedding row whose `document_id` belongs to a document row with
that path, delete every document row with that path, then insert one new
document row with the file's current hash and mtime.  The hash, mtime and
`datetime.now()` values, and `os.path.normpath(os.path.abspath(...))`, are
external inputs and appear as parameters. -/
def store_document (norm : PyStr → PyStr) (fileHash lastModified now : PyStr)
    (file_path : PyStr) (chunks : List PyStr) (s : Store) : Store :=
  let fp := norm file_path
  let oldIds := (s.documents.filter (fun d => d.file_path == fp)).map (fun d => d.id)
  { documents := s.documents.filter (fun d => !(d.file_path == fp)) ++
      [⟨s.nextDocId, fp, fileHash, lastModified, now, chunks⟩],
    embeddings := s.embeddings.filter (fun e => !(oldIds.contains e.document_id)),
    nextDocId := s.nextDocId + 1,
    nextEmbId := s.nextEmbId }

/-- `DocumentStore.store_embeddings(file_path, chunk_embeddings)`: look up the
document id for the (unnormalised) path — `fetchone()[0]` raises if no row
matches, modelled by `none` — then insert one embedding row per
`(chunk_text, embedding)` pair, in input order, storing
`embedding.tobytes()`. -/
def store_embeddings (file_path : PyStr) (chunk_embeddings : List (PyStr × Vec))
    (s : Store) : Option Store :=
  match s.documents.find? (fun d => d.file_path == file_path) with
  | none => none
  | some d =>
      some { s with
        embeddings := s.embeddings ++ chunk_embeddings.enum.map
          (fun p => ⟨s.nextEmbId + p.1, d.id, vecToBytes p.2.2, p.2.1⟩),
        nextEmbId := s.nextEmbId + chunk_embeddings.length }

/-- `DocumentStore.get_all_embeddings()`: `SELECT embedding, chunk_text FROM
embeddings` in rowid order, decoding each blob with
`np.frombuffer(..., dtype=np.float32)`; returns the vector list and the
chunk-text list. -/
def get_all_embeddings (s : Store) : List Vec × List PyStr :=
  (s.embeddings.map (fun e => fromBuffer e.embedding),
   s.embeddings.map (fun e => e.chunk_text))

/-- `DocumentStore.is_document_processed(file_path)`: inside a `try` that
returns `False` on any exception, normalise the path, return `False` when the
file does not exist (`fileExists`), otherwise hash the file (`currentHash` is
that externally computed hash) and compare it with the hash of the first
document row whose `file_path` matches; no row means `False`. -/
def is_document_processed (norm : PyStr → PyStr) (fileExists : Bool)
    (currentHash : PyStr) (file_path : PyStr) (s : Store) : Bool :=
  if fileExists then
    match s.documents.find? (fun d => d.file_path == norm file_path) with
    | some d => d.file_hash == currentHash
    | none => false
  else false

/-- The Python error kinds the embedded fragments can raise:
`ValueError("No documents in the index")` in `retrieve`, and `TypeError`
for `list.count()` called without its required argument. -/
inductive PyError where
  | valueError : PyError
  | typeError : PyError
deriving DecidableEq

/-- The in-memory state of one `RAGSystem`: its `DocumentStore`, the FAISS
index rows (one vector per row, in insertion order) and `self.documents`,
the in-memory chunk table. -/
structure SysState where
  store : Store
  index : List Vec
  documents : List PyStr
deriving DecidableEq

/-- The body of the `for file_path, doc in documents:` loop of
`RAGSystem.add_documents`: skip blank text, chunk, skip when no chunks,
encode each chunk (`enc` is the external `SentenceTransformer`), persist via
`store_document` then `store_embeddings` (whose failure aborts the whole
call, modelled by `none`), then append the vectors to the FAISS index and
the chunk texts to `self.documents`, in that order. -/
def process_document (norm : PyStr → PyStr) (hashF mtimeF : PyStr → PyStr)
    (now : PyStr) (enc : PyStr → Vec) (chunkSize : Nat) (file_path doc : PyStr)
    (st : SysState) : Option SysState :=
  if (pyStrip doc).isEmpty then some st
  else
    let chunks := chunkText doc chunkSize
    if chunks.isEmpty then some st
    else
      let embs := chunks.map enc
      let s1 := store_document norm (hashF (norm file_path)) (mtimeF (norm file_path))
        now file_path chunks st.store
      match store_embeddings file_path (chunks.zip embs) s1 with
      | none => none
      | some s2 => some ⟨s2, st.index ++ embs, st.documents ++ chunks⟩

/-- `RAGSystem.add_documents(documents, chunk_size)`: process the batch in
order; an exception while persisting one file propagates (`none`) and leaves
the later files unprocessed. -/
def add_documents (norm : PyStr → PyStr) (hashF mtimeF : PyStr → PyStr)
    (now : PyStr) (enc : PyStr → Vec) (chunkSize : Nat) :
    List (PyStr × PyStr) → SysState → Option SysState
  | [], st => some st
  | (fp, doc) :: rest, st =>
      match process_document norm hashF mtimeF now enc chunkSize fp doc st with
      | none => none
      | some st' => add_documents norm hashF mtimeF now enc chunkSize rest st'

/-- `RAGSystem._load_existing_embeddings()`: read every stored embedding,
and when both returned lists are non-empty (`if embeddings and chunks:`)
bulk-add the vectors to the FAISS index and extend `self.documents` with the
chunk texts. -/
def load_existing_embeddings (st : SysState) : SysState :=
  let ec := get_all_embeddings st.store
  if !ec.1.isEmpty && !ec.2.isEmpty then
    { st with index := st.index ++ ec.1, documents := st.documents ++ ec.2 }
  else st

/-- Insert one `(distance, row)` pair into a list sorted by distance, ties by
row number. -/
def insertPair (a : Nat × Nat) : List (Nat × Nat) → List (Nat × Nat)
  | [] => [a]
  | b :: t =>
      if a.1 < b.1 ∨ (a.1 = b.1 ∧ a.2 ≤ b.2) then a :: b :: t
      else b :: insertPair a t

/-- Sort `(distance, row)` pairs ascending by distance, ties by row number. -/
def sortPairs : List (Nat × Nat) → List (Nat × Nat)
  | [] => []
  | a :: t => insertPair a (sortPairs t)

/-- The FAISS `IndexFlatL2.search` adapter: score every row of the index
against the query with the distance function `dist` (the library's exact L2
float32 distance is opaque to this embedding — the claims proved here hold
for any distance), sort ascending, and return the row numbers of the first
`k` results.  With `k ≤ ntotal`, as `retrieve` guarantees by clamping, the
result has exactly `k` rows. -/
def searchIdx (dist : Vec → Vec → Nat) (index : List Vec) (q : Vec) (k : Nat) :
    List Nat :=
  ((sortPairs ((List.range index.length).map
      (fun i => (dist q (index.getD i []), i)))).take k).map (fun p => p.2)

/-- `RAGSystem.retrieve(query, k)`: raise `ValueError("No documents in the
index")` when `self.documents` is empty; otherwise embed the query (the
caller passes the query vector `q`, the external encoder being opaque),
search the FAISS index with `min(k, len(self.documents))`, and return the
chunk texts at the returned row numbers.  The returned state is the state
after the call — `retrieve` mutates nothing. -/
def retrieve (dist : Vec → Vec → Nat) (q : Vec) (k : Nat) (st : SysState) :
    SysState × Except PyError (List PyStr) :=
  if st.documents.isEmpty then (st, .error .valueError)
  else
    let idxs := searchIdx dist st.index q (min k st.documents.length)
    (st, .ok (idxs.map (fun i => st.documents.getD i [])))

/-- Python `list.count`: with its one required element argument it counts
occurrences; called with no argument — as `RAGSystem.get_document_count`
does — CPython raises `TypeError` before looking at the list. -/
def listCount (l : List PyStr) : Option PyStr → Except PyError Nat
  | none => .error .typeError
  | some x => .ok (l.countP (fun y => y == x))

/-- `RAGSystem.get_document_count()`: `return self.documents.count()` — the
call passes `list.count` no element argument. -/
def get_document_count (st : SysState) : Except PyError Nat :=
  listCount st.documents none

/-- The f-string template of `RAGSystem.generate_response`:
`f"Context: {context}\n\nQuestion: {query}\n\nBased on the context provided,
please answer the question:"` with `context = "\n".join(relevant_docs)`. -/
def buildPrompt (relevant_docs : List PyStr) (query : PyStr) : PyStr :=
  ("Context: ".data) ++ pyJoin ['\n'] relevant_docs ++
    ("\n\nQuestion: ".data) ++ query ++
    ("\n\nBased on the context provided, please answer the question:".data)

/-- `RAGSystem.generate_response` after retrieval: build the prompt from the
retrieved chunks, optionally rewrite it through the tokenizer's chat
template (`applyChat`, external), and return the completion service's text
(`gen`, external). -/
def generate_response (applyChat : Option (PyStr → PyStr)) (gen : PyStr → PyStr)
    (relevant_docs : List PyStr) (query : PyStr) : PyStr :=
  let prompt := buildPrompt relevant_docs query
  let prompt2 :=
    match applyChat with
    | some f => f prompt
    | none => prompt
  gen prompt2

/-- The boilerplate prefix `QueryWindow.remove_prefix` strips. -/
def boilerplate : PyStr := "According to the context, ".data

/-- `QueryWindow.remove_prefix(s)` from `src/docwhisperar.py`: drop the
boilerplate prefix when `s.startswith(prefix)`, else return `s` unchanged. -/
def cleanResponse (s : PyStr) : PyStr :=
  if boilerplate.isPrefixOf s then s.drop boilerplate.length else s

/-- The response composition path the UI runs for one query: the completion
text of `generate_response`, post-processed by `QueryWindow.remove_prefix`
(`QueryWindow.update_response` applies it to every response). -/
def responsePath (applyChat : Option (PyStr → PyStr)) (gen : PyStr → PyStr)
    (relevant_docs : List PyStr) (query : PyStr) : PyStr :=
  cleanResponse (generate_response applyChat gen relevant_docs query)

/-- A store holding one document row for path `a` (hash `h1`, one chunk
`c1`) and one embedding row referencing it; used by concrete witnesses. -/
def oneDocStore : Store :=
  ⟨[⟨1, ("a".data), ("h1".data), ("m".data), ("t".data), [("c1".data)]⟩],
   [⟨1, 1, ("c1".data).map Char.toNat, ("c1".data)⟩], 2, 2⟩

/-- A store holding one document row for path `a` and no embedding rows yet;
used by concrete witnesses. -/
def bareDocStore : Store :=
  ⟨[⟨1, ("a".data), ("h1".data), ("m".data), ("t".data), []⟩], [], 2, 1⟩

/-- A fresh engine state over a fresh database; used by concrete
witnesses. -/
def freshState : SysState := ⟨emptyStore, [], []⟩

/-- The engine state after ingesting one document `("a", "ab")` into
`freshState` with trivial external collaborators (identity normalisation,
empty hash/mtime/now, a constant encoder); used by concrete witnesses. -/
def ingestedState : SysState :=
  ⟨⟨[⟨1, ("a".data), [], [], [], [("ab".data)]⟩],
    [⟨1, 1, [0, 0, 0, 0], ("ab".data)⟩], 2, 2⟩, [[0]], [("ab".data)]⟩

-- Sanity checks on concrete inputs.
example : chunkText ("ab cd ef".data) 5 = [("ab cd".data), ("ef".data)] := by decide
example : chunkText ("ab cd ef".data) 100 = [("ab cd ef".data)] := by decide
example : chunkText ("".data) 7 = [] := by decide
example : chunkText ("   ".data) 7 = [] := by decide
example : chunkText ("a b".data) 0 = [("a".data), ("b".data)] := by decide

theorem weight_nil : weight [] = 0 := rfl

theorem weight_snoc (g : List PyStr) (w : PyStr) :
    weight (g ++ [w]) = weight g + (w.length + 1) := by
  simp [weight]

/-- The characterisation of one run of the accumulation loop, generalised
over the accumulator: started on the word list `ws` with a current chunk
`cur` whose every non-empty proper-or-improper prefix still weighs less than
`chunkSize`, the loop partitions `cur ++ ws` into non-empty groups, returns
the space-join of each group, every group but the last weighs at least
`chunkSize`, and no group reaches `chunkSize` before its final word. -/
theorem chunkWords_groups (n : Nat) : ∀ (ws cur : List PyStr),
    (∀ j, 0 < j → j ≤ cur.length → weight (cur.take j) < n) →
    ∃ gs : List (List PyStr),
      gs.flatten = cur ++ ws ∧
      chunkWords n ws cur (weight cur) = gs.map (pyJoin [' ']) ∧
      (∀ g ∈ gs, g ≠ []) ∧
      (∀ i, i + 1 < gs.length → n ≤ weight (gs.getD i [])) ∧
      (∀ g ∈ gs, ∀ j, 0 < j → j < g.length → weight (g.take j) < n) := by
  intro ws
  induction ws with
  | nil =>
    intro cur h
    cases cur with
    | nil =>
      refine ⟨[], by simp, by simp [chunkWords], by simp, ?_, by simp⟩
      intro i hi
      simp at hi
    | cons c cs =>
      refine ⟨[c :: cs], by simp, by simp [chunkWords], ?_, ?_, ?_⟩
      · intro g hg
        simp at hg
        simp [hg]
      · intro i hi
        simp at hi
      · intro g hg j hj hlt
        simp at hg
        subst hg
        exact h j hj (Nat.le_of_lt hlt)
  | cons w ws ih =>
    intro cur h
    by_cases hflush : n ≤ weight cur + (w.length + 1)
    · -- the running length reaches `chunk_size`: flush `cur ++ [w]`
      obtain ⟨gs', hjoin', heq', hne', hbig', hpre'⟩ := ih [] (by intro j hj hle; simp at hle; omega)
      refine ⟨(cur ++ [w]) :: gs', ?_, ?_, ?_, ?_, ?_⟩
      · simp [hjoin']
      · have : chunkWords n (w :: ws) cur (weight cur) =
            pyJoin [' '] (cur ++ [w]) :: chunkWords n ws [] 0 := by
          simp [chunkWords, hflush]
        rw [this]
        have h0 : weight ([] : List PyStr) = 0 := rfl
        rw [← h0, heq']
        simp
      · intro g hg
        rcases List.mem_cons.mp hg with hg' | hg'
        · simp [hg']
        · exact hne' g hg'
      · intro i hi
        cases i with
        | zero => simpa [weight_snoc] using hflush
        | succ i' =>
          simp only [List.getD_cons_succ]
          exact hbig' i' (by simpa using hi)
      · intro g hg j hj hlt
        rcases List.mem_cons.mp hg with hg' | hg'
        · subst hg'
          have hle : j ≤ cur.length := by
            have := hlt
            simp [List.length_append] at this
            omega
          rw [List.take_append_of_le_length hle]
          exact h j hj hle
        · exact hpre' g hg' j hj hlt
    · -- the running length stays under `chunk_size`: keep accumulating
      push_neg at hflush
      have hcur' : ∀ j, 0 < j → j ≤ (cur ++ [w]).length →
          weight ((cur ++ [w]).take j) < n := by
        intro j hj hle
        rcases Nat.lt_or_ge j (cur.length + 1) with hlt | hge
        · have hle' : j ≤ cur.length := by omega
          rw [List.take_append_of_le_length hle']
          exact h j hj hle'
        · have hj' : j = cur.length + 1 := by
            simp [List.length_append] at hle
            omega
          subst hj'
          rw [List.take_of_length_le (by simp)]
          rw [weight_snoc]
          exact hflush
      obtain ⟨gs, hjoin, heq, hne, hbig, hpre⟩ := ih (cur ++ [w]) hcur'
      refine ⟨gs, ?_, ?_, hne, hbig, hpre⟩
      · simpa using hjoin
      · have : chunkWords n (w :: ws) cur (weight cur) =
            chunkWords n ws (cur ++ [w]) (weight cur + (w.length + 1)) := by
          simp [chunkWords, Nat.not_le.mpr hflush]
        rw [this, ← weight_snoc, heq]

/-- Python `sep.join` distributes over concatenation of non-empty lists. -/
theorem pyJoin_append (s : PyStr) : ∀ (a b : List PyStr), a ≠ [] → b ≠ [] →
    pyJoin s (a ++ b) = pyJoin s a ++ s ++ pyJoin s b
  | [], _, ha, _ => absurd rfl ha
  | [x], b, _, hb => by
    cases b with
    | nil => exact absurd rfl hb
    | cons y t => simp [pyJoin]
  | x :: x' :: xs, b, _, hb => by
    have ih := pyJoin_append s (x' :: xs) b (by simp) hb
    have h1 : (x :: x' :: xs) ++ b = x :: ((x' :: xs) ++ b) := by simp
    rw [h1]
    have h2 : (x' :: xs) ++ b = x' :: (xs ++ b) := by simp
    rw [h2]
    show x ++ s ++ pyJoin s (x' :: (xs ++ b)) = pyJoin s (x :: x' :: xs) ++ s ++ pyJoin s b
    rw [← h2, ih]
    show x ++ s ++ (pyJoin s (x' :: xs) ++ s ++ pyJoin s b) =
      (x ++ s ++ pyJoin s (x' :: xs)) ++ s ++ pyJoin s b
    simp [List.append_assoc]

/-- Space-joining the space-joins of non-empty groups is the space-join of
the flattened word list. -/
theorem pyJoin_map_join : ∀ (gs : List (List PyStr)), (∀ g ∈ gs, g ≠ []) →
    pyJoin [' '] (gs.map (pyJoin [' '])) = pyJoin [' '] gs.flatten
  | [], _ => rfl
  | [g], _ => by simp [pyJoin]
  | g :: g' :: t, h => by
    have hg : g ≠ [] := h g (by simp)
    have hrest : ∀ x ∈ g' :: t, x ≠ [] := fun x hx => h x (by simp [hx])
    have ih := pyJoin_map_join (g' :: t) hrest
    have hjoin_ne : (g' :: t).flatten ≠ [] := by
      have hg' : g' ≠ [] := hrest g' (by simp)
      cases g' with
      | nil => exact absurd rfl hg'
      | cons c cs => simp
    show pyJoin [' '] (pyJoin [' '] g :: (g' :: t).map (pyJoin [' '])) =
      pyJoin [' '] (g ++ (g' :: t).flatten)
    rw [pyJoin_append [' '] g (g' :: t).flatten hg hjoin_ne]
    cases t with
    | nil =>
      simp [pyJoin]
    | cons g'' t' =>
      show pyJoin [' '] g ++ [' '] ++ pyJoin [' '] ((g' :: g'' :: t').map (pyJoin [' '])) = _
      rw [ih]

-- Sanity checks for the store and engine embeddings.
example : fromBuffer (vecToBytes [5, 300]) = [5, 300] := by decide
example :
    store_embeddings ("b".data) [(("c".data), [5])] bareDocStore = none := by decide
example :
    is_document_processed id true ("h1".data) ("a".data) oneDocStore = true := by
  decide
example :
    is_document_processed id true ("h2".data) ("a".data) oneDocStore = false := by
  decide
example : searchIdx (fun _ w => w.headD 0) [[3], [1], [2]] [] 2 = [1, 2] := by decide

/-- C7: the chunking step of `add_documents` splits the text into whitespace
words and partitions them, in order and without overlap, into non-empty
groups; each produced chunk is the space-join of its group, every group
except the last weighed at least `chunk_size` when it was flushed (counting
`len(word) + 1` per word), and no group reaches `chunk_size` before its last
word — the flush happens as soon as the running count reaches or exceeds
`chunk_size`, and a final non-empty partial group is flushed as the last
chunk. -/
theorem chunking_follows_greedy_accumulation (doc : PyStr) (chunkSize : Nat) :
    ∃ gs : List (List PyStr),
      gs.flatten = pySplit doc ∧
      chunkText doc chunkSize = gs.map (pyJoin [' ']) ∧
      (∀ g ∈ gs, g ≠ []) ∧
      (∀ i, i + 1 < gs.length → chunkSize ≤ weight (gs.getD i [])) ∧
      (∀ g ∈ gs, ∀ j, 0 < j → j < g.length → weight (g.take j) < chunkSize) := by
  have h0 : weight ([] : List PyStr) = 0 := rfl
  have h := chunkWords_groups chunkSize (pySplit doc) []
    (by intro j hj hle; simp at hle; omega)
  rw [h0] at h
  simpa [chunkText] using h

/-- C8: the chunker is embedded as a pure function of `(text, chunk_size)`,
hence deterministic; splitting the empty string yields the empty chunk
sequence, and rejoining all produced chunks with single spaces reconstructs
the whitespace-normalised word sequence `' '.join(text.split())`. -/
theorem chunking_reconstruction (doc : PyStr) (chunkSize : Nat) :
    chunkText [] chunkSize = [] ∧
    pyJoin [' '] (chunkText doc chunkSize) = pyJoin [' '] (pySplit doc) := by
  refine ⟨rfl, ?_⟩
  obtain ⟨gs, hflat, heq, hne, -, -⟩ := chunkWords_groups chunkSize (pySplit doc) []
    (by intro j hj hle; simp at hle; omega)
  have h0 : weight ([] : List PyStr) = 0 := rfl
  rw [h0] at heq
  have heq' : chunkText doc chunkSize = gs.map (pyJoin [' ']) := heq
  rw [heq', pyJoin_map_join gs hne]
  simp at hflat
  rw [hflat]

/-- C10: `get_document_count` raises `TypeError` for every engine state and
never returns a count: `self.documents.count()` passes `list.count` no
element argument, so the call fails regardless of how many documents or
chunks are indexed. -/
theorem document_count_always_raises (st : SysState) :
    get_document_count st = .error .typeError ∧
    (get_document_count st).toOption = none :=
  ⟨rfl, rfl⟩

/-- C9: the response composition path builds the prompt from the fixed
template — context block of newline-joined retrieved chunks, blank line, the
literal question, blank line, the answer-from-context instruction — hands it
(optionally through the tokenizer's chat template) to the completion
service, and post-processes the completion: the boilerplate prefix
`According to the context, ` is removed exactly when the response starts
with it, and otherwise the response is returned unchanged. -/
theorem response_composition_spec (applyChat : Option (PyStr → PyStr))
    (gen : PyStr → PyStr) (docs : List PyStr) (q r s : PyStr)
    (hs : ¬ boilerplate <+: s) :
    responsePath applyChat gen docs q =
      cleanResponse (gen ((applyChat.getD id) (buildPrompt docs q))) ∧
    buildPrompt docs q =
      ("Context: ".data) ++ pyJoin ['\n'] docs ++ ['\n', '\n'] ++
        ("Question: ".data) ++ q ++ ['\n', '\n'] ++
        ("Based on the context provided, please answer the question:".data) ∧
    cleanResponse (boilerplate ++ r) = r ∧
    cleanResponse s = s := by
  refine ⟨?_, ?_, ?_, ?_⟩
  · cases applyChat <;> rfl
  · have e1 : ("\n\nQuestion: ".data) = ['\n', '\n'] ++ ("Question: ".data) := by
      decide
    have e2 : ("\n\nBased on the context provided, please answer the question:".data) =
        ['\n', '\n'] ++
          ("Based on the context provided, please answer the question:".data) := by
      decide
    simp [buildPrompt, e1, e2]
  · have hp : boilerplate.isPrefixOf (boilerplate ++ r) = true :=
      List.isPrefixOf_iff_prefix.mpr (List.prefix_append _ _)
    simp only [cleanResponse, hp, if_true]
    exact List.drop_left _ _
  · have hp : boilerplate.isPrefixOf s = false := by
      rw [← Bool.not_eq_true, List.isPrefixOf_iff_prefix]
      exact hs
    simp [cleanResponse, hp]

/-- Witness for C9 at concrete inputs: the boilerplate prefix really is
stripped from a response that carries it. -/
theorem response_composition_spec_witness :
    cleanResponse (boilerplate ++ ("x".data)) = ("x".data) :=
  (response_composition_spec none id [] [] ("x".data) ("No.".data)
    (by decide)).2.2.1

/-- C5: `retrieve(query, k)` raises the empty-index `ValueError` exactly
when the in-memory chunk table `self.documents` is empty at the time of the
call, and the call leaves the chunk table and the FAISS index unchanged (in
the error case as in every other case). -/
theorem retrieve_empty_index_spec (dist : Vec → Vec → Nat) (q : Vec) (k : Nat)
    (st : SysState) :
    ((retrieve dist q k st).2 = .error .valueError ↔ st.documents = []) ∧
    (retrieve dist q k st).1 = st := by
  constructor
  · constructor
    · intro he
      by_cases hd : st.documents.isEmpty
      · exact List.isEmpty_iff.mp hd
      · simp [retrieve, hd] at he
    · intro he
      simp [retrieve, he]
  · by_cases hd : st.documents.isEmpty <;> simp [retrieve, hd]

/-- C1: after `store_document(p, chunks)` completes, the `documents` table
holds exactly one row whose `file_path` is the normalised form of `p` — the
freshly inserted row, carrying the new chunk list and the fresh id, which
references none of the previously stored rows for that path — and every
surviving embedding row is an old row whose `document_id` references none of
the previously stored document rows for that path; in particular the old
embeddings for `p` no longer appear in `get_all_embeddings()`. -/
theorem store_document_replaces_previous (norm : PyStr → PyStr)
    (fileHash lastModified now p : PyStr) (chunks : List PyStr) (s : Store)
    (hfresh : ∀ d ∈ s.documents, d.id < s.nextDocId) :
    ((store_document norm fileHash lastModified now p chunks s).documents.filter
        (fun d => d.file_path == norm p)).map (fun d => (d.id, d.chunks)) =
      [(s.nextDocId, chunks)] ∧
    (∀ e ∈ (store_document norm fileHash lastModified now p chunks s).embeddings,
      e ∈ s.embeddings ∧
        e.document_id ∉ (s.documents.filter (fun d => d.file_path == norm p)).map
          (fun d => d.id)) ∧
    s.nextDocId ∉ (s.documents.filter (fun d => d.file_path == norm p)).map
      (fun d => d.id) := by
  refine ⟨?_, ?_, ?_⟩
  · simp [store_document, List.filter_append, List.filter_filter]
  · intro e he
    simp only [store_document, List.mem_filter, Bool.not_eq_eq_eq_not,
      Bool.not_true] at he
    refine ⟨he.1, ?_⟩
    intro hmem
    have : ((s.documents.filter (fun d => d.file_path == norm p)).map
        (fun d => d.id)).contains e.document_id = true := by
      exact List.elem_iff.mpr hmem
    rw [this] at he
    simp at he
  · intro hmem
    simp only [List.mem_map, List.mem_filter] at hmem
    obtain ⟨d, ⟨hd, -⟩, hid⟩ := hmem
    have := hfresh d hd
    omega

/-- Witness for C1 at a concrete store: re-storing path `a` (which already
has a document row and an embedding row) leaves exactly the fresh row for
`a`. -/
theorem store_document_replaces_previous_witness :
    ((store_document id ("h2".data) ("m".data) ("t".data) ("a".data)
        [("c2".data)] oneDocStore).documents.filter
        (fun d => d.file_path == id ("a".data))).map (fun d => (d.id, d.chunks)) =
      [(2, [("c2".data)])] :=
  (store_document_replaces_previous id ("h2".data) ("m".data) ("t".data)
    ("a".data) [("c2".data)] oneDocStore (by decide)).1

/-- C4: `is_document_processed(p)` never raises (its body is wrapped in a
`try` returning `False`, and a missing file yields `False`), and — on a
store whose document rows have pairwise distinct paths, as every store
reachable through `store_document` does — it returns `True` exactly when a
document row for the normalised form of `p` exists whose stored `file_hash`
equals the freshly recomputed content hash; a row whose stored fingerprint
differs yields `False`. -/
theorem is_document_processed_spec (norm : PyStr → PyStr)
    (currentHash p : PyStr) (s : Store)
    (hu : (s.documents.map (fun d => d.file_path)).Nodup) :
    is_document_processed norm false currentHash p s = false ∧
    (is_document_processed norm true currentHash p s = true ↔
      ∃ d ∈ s.documents, d.file_path = norm p ∧ d.file_hash = currentHash) := by
  refine ⟨rfl, ?_⟩
  constructor
  · intro h
    simp only [is_document_processed, if_true] at h
    cases hfind : s.documents.find? (fun d => d.file_path == norm p) with
    | none => rw [hfind] at h; exact absurd h (by simp)
    | some d =>
      rw [hfind] at h
      refine ⟨d, List.mem_of_find?_eq_some hfind, ?_, ?_⟩
      · have := List.find?_some hfind
        exact eq_of_beq this
      · exact eq_of_beq h
  · intro hex
    obtain ⟨d, hd, hpath, hhash⟩ := hex
    simp only [is_document_processed, if_true]
    cases hfind : s.documents.find? (fun d => d.file_path == norm p) with
    | none =>
      have := List.find?_eq_none.mp hfind d hd
      simp [hpath] at this
    | some d' =>
      have hd' : d' ∈ s.documents := List.mem_of_find?_eq_some hfind
      have hb := List.find?_some hfind
      have hpath' : d'.file_path = norm p := by
        simp only at hb
        exact eq_of_beq hb
      have : d = d' :=
        List.inj_on_of_nodup_map hu hd hd' (by rw [hpath, hpath'])
      subst this
      rw [← hhash]
      exact beq_self_eq_true d.file_hash

/-- Witness for C4 at a concrete store: the path `a` with the stored hash is
reported as cached. -/
theorem is_document_processed_spec_witness :
    is_document_processed id true ("h1".data) ("a".data) oneDocStore = true :=
  (is_document_processed_spec id ("h1".data) ("a".data) oneDocStore
    (by decide)).2.mpr
    ⟨⟨1, ("a".data), ("h1".data), ("m".data), ("t".data), [("c1".data)]⟩,
      by decide, by decide, by decide⟩

/-- Decoding `tobytes` output with `frombuffer` at dtype float32 recovers
exactly the stored float32 bit patterns. -/
theorem fromBuffer_vecToBytes (v : Vec) (hv : ∀ x ∈ v, x < 2 ^ 32) :
    fromBuffer (vecToBytes v) = v := by
  induction v with
  | nil => rfl
  | cons x t ih =>
    have hx : x < 2 ^ 32 := hv x (by simp)
    have ht : ∀ y ∈ t, y < 2 ^ 32 := fun y hy => hv y (by simp [hy])
    have hx' : x < 4294967296 := by
      have : (2 : Nat) ^ 32 = 4294967296 := by norm_num
      omega
    show fromBuffer (vecToBytes (x :: t)) = x :: t
    have hsplit : vecToBytes (x :: t) =
        x % 256 :: (x / 256 % 256) :: (x / 65536 % 256) ::
          (x / 16777216 % 256) :: vecToBytes t := by
      simp [vecToBytes, f32ToBytes]
    rw [hsplit]
    show (x % 256 + 256 * (x / 256 % 256) + 65536 * (x / 65536 % 256) +
        16777216 * (x / 16777216 % 256)) :: fromBuffer (vecToBytes t) = x :: t
    rw [ih ht]
    congr 1
    omega

/-- C3: appending `(chunk_text, vector)` pairs through `store_embeddings`
for a document present in the store extends what `get_all_embeddings`
returns by exactly those pairs, in input order, with each float32 vector
decoding to the one stored; the enumeration pairs one decoded vector with
one chunk text per row (the two returned lists always have equal length),
and being a pure function of the store it returns identical sequences on
repeated calls against unmodified storage. -/
theorem store_embeddings_roundtrip (p : PyStr) (pairs : List (PyStr × Vec))
    (s s' : Store)
    (hrun : store_embeddings p pairs s = some s')
    (hv : ∀ pr ∈ pairs, ∀ x ∈ pr.2, x < 2 ^ 32) :
    (get_all_embeddings s').1 =
      (get_all_embeddings s).1 ++ pairs.map (fun pr => pr.2) ∧
    (get_all_embeddings s').2 =
      (get_all_embeddings s).2 ++ pairs.map (fun pr => pr.1) ∧
    (get_all_embeddings s').1.length = (get_all_embeddings s').2.length := by
  simp only [store_embeddings] at hrun
  cases hfind : s.documents.find? (fun d => d.file_path == p) with
  | none => rw [hfind] at hrun; exact absurd hrun (by simp)
  | some d =>
    rw [hfind] at hrun
    have hs' : s' = { s with
        embeddings := s.embeddings ++ pairs.enum.map
          (fun pr => ⟨s.nextEmbId + pr.1, d.id, vecToBytes pr.2.2, pr.2.1⟩),
        nextEmbId := s.nextEmbId + pairs.length } := by
      exact (Option.some.inj hrun).symm
    subst hs'
    refine ⟨?_, ?_, by simp [get_all_embeddings]⟩
    · simp only [get_all_embeddings, List.map_append, List.map_map]
      congr 1
      have h1 : ((fun e : EmbeddingRow => fromBuffer e.embedding) ∘
          (fun pr : Nat × (PyStr × Vec) =>
            (⟨s.nextEmbId + pr.1, d.id, vecToBytes pr.2.2, pr.2.1⟩ :
              EmbeddingRow))) =
          fun pr : Nat × (PyStr × Vec) => fromBuffer (vecToBytes pr.2.2) := rfl
      rw [h1]
      have h2 : pairs.enum.map
            (fun pr : Nat × (PyStr × Vec) => fromBuffer (vecToBytes pr.2.2)) =
          pairs.enum.map (fun pr => pr.2.2) := by
        apply List.map_congr_left
        intro a ha
        exact fromBuffer_vecToBytes a.2.2 (hv a.2 (List.snd_mem_of_mem_enum ha))
      rw [h2]
      have h3 : (fun pr : Nat × (PyStr × Vec) => pr.2.2) =
          ((fun pr : PyStr × Vec => pr.2) ∘ Prod.snd) := rfl
      rw [h3, ← List.map_map, List.enum_map_snd]
    · simp only [get_all_embeddings, List.map_append, List.map_map]
      congr 1
      have h1 : ((fun e : EmbeddingRow => e.chunk_text) ∘
          (fun pr : Nat × (PyStr × Vec) =>
            (⟨s.nextEmbId + pr.1, d.id, vecToBytes pr.2.2, pr.2.1⟩ :
              EmbeddingRow))) =
          ((fun pr : PyStr × Vec => pr.1) ∘ Prod.snd) := rfl
      rw [h1, ← List.map_map, List.enum_map_snd]

/-- Witness for C3 at a concrete store: one stored pair comes back decoded
from `get_all_embeddings`, appended after the (empty) prior contents. -/
theorem store_embeddings_roundtrip_witness :
    (get_all_embeddings ⟨[⟨1, ("a".data), ("h1".data), ("m".data), ("t".data),
        []⟩], [⟨1, 1, [5, 0, 0, 0], ("c".data)⟩], 2, 2⟩).1 =
      (get_all_embeddings bareDocStore).1 ++ [[5]] :=
  (store_embeddings_roundtrip ("a".data) [(("c".data), [5])] bareDocStore
    ⟨[⟨1, ("a".data), ("h1".data), ("m".data), ("t".data), []⟩],
      [⟨1, 1, [5, 0, 0, 0], ("c".data)⟩], 2, 2⟩
    (by decide) (by decide)).1

theorem length_insertPair (a : Nat × Nat) (l : List (Nat × Nat)) :
    (insertPair a l).length = l.length + 1 := by
  induction l with
  | nil => rfl
  | cons b t ih =>
    simp only [insertPair]
    split
    · simp
    · simp [ih]

theorem mem_insertPair {x a : Nat × Nat} {l : List (Nat × Nat)} :
    x ∈ insertPair a l ↔ x = a ∨ x ∈ l := by
  induction l with
  | nil => simp [insertPair]
  | cons b t ih =>
    simp only [insertPair]
    split
    · simp [or_comm, or_assoc, or_left_comm]
    · simp [ih]
      tauto

theorem length_sortPairs (l : List (Nat × Nat)) :
    (sortPairs l).length = l.length := by
  induction l with
  | nil => rfl
  | cons a t ih => simp [sortPairs, length_insertPair, ih]

theorem mem_sortPairs {x : Nat × Nat} {l : List (Nat × Nat)} :
    x ∈ sortPairs l ↔ x ∈ l := by
  induction l with
  | nil => simp [sortPairs]
  | cons a t ih => simp [sortPairs, mem_insertPair, ih]

/-- The search adapter returns `min k n` row numbers over an index of `n`
rows, each one a valid row number. -/
theorem searchIdx_length_mem (dist : Vec → Vec → Nat) (index : List Vec)
    (q : Vec) (k : Nat) :
    (searchIdx dist index q k).length = min k index.length ∧
    ∀ i ∈ searchIdx dist index q k, i < index.length := by
  constructor
  · simp [searchIdx, length_sortPairs]
  · intro i hi
    simp only [searchIdx, List.mem_map] at hi
    obtain ⟨pr, hpr, hsnd⟩ := hi
    have hpr' : pr ∈ sortPairs ((List.range index.length).map
        (fun j => (dist q (index.getD j []), j))) :=
      List.take_subset _ _ hpr
    rw [mem_sortPairs] at hpr'
    simp only [List.mem_map, List.mem_range] at hpr'
    obtain ⟨j, hj, hjeq⟩ := hpr'
    rw [← hsnd, ← hjeq]
    exact hj

/-- C6: with `k` greater than the number of indexed chunks and a non-empty
chunk table aligned with the index, `retrieve(query, k)` neither raises nor
returns `k` results: the search is clamped to `min(k, table_size)`, the call
returns exactly `table_size` chunk strings, and each returned string is the
chunk-table entry at the row number the search reported. -/
theorem retrieve_clamped_results (dist : Vec → Vec → Nat) (q : Vec) (k : Nat)
    (st : SysState) (hne : st.documents ≠ [])
    (hlen : st.index.length = st.documents.length)
    (hk : st.documents.length < k) :
    ∃ res, (retrieve dist q k st).2 = .ok res ∧
      res = (searchIdx dist st.index q (min k st.documents.length)).map
        (fun i => st.documents.getD i []) ∧
      res.length = st.documents.length ∧
      ∀ i ∈ searchIdx dist st.index q (min k st.documents.length),
        i < st.documents.length := by
  have hmin : min k st.documents.length = st.documents.length :=
    Nat.min_eq_right (Nat.le_of_lt hk)
  have hd : st.documents.isEmpty = false := by
    simpa [List.isEmpty_iff] using hne
  obtain ⟨hslen, hsmem⟩ := searchIdx_length_mem dist st.index q
    (min k st.documents.length)
  refine ⟨(searchIdx dist st.index q (min k st.documents.length)).map
    (fun i => st.documents.getD i []), ?_, rfl, ?_, ?_⟩
  · simp [retrieve, hd]
  · rw [List.length_map, hslen, hmin, hlen]
    exact Nat.min_self _
  · intro i hi
    rw [← hlen]
    exact hsmem i hi

/-- Witness for C6 at a concrete engine state: one indexed chunk, `k = 2`,
one result. -/
theorem retrieve_clamped_results_witness :
    ∃ res, (retrieve (fun _ _ => 0) [] 2
        ⟨emptyStore, [[0]], [("a".data)]⟩).2 = .ok res ∧
      res = (searchIdx (fun _ _ => 0) [[0]] []
          (min 2 [("a".data)].length)).map
        (fun i => [("a".data)].getD i []) ∧
      res.length = [("a".data)].length ∧
      ∀ i ∈ searchIdx (fun _ _ => 0) [[0]] [] (min 2 [("a".data)].length),
        i < [("a".data)].length :=
  retrieve_clamped_results (fun _ _ => 0) [] 2
    ⟨emptyStore, [[0]], [("a".data)]⟩ (by decide) rfl (by decide)

/-- Processing one `(file_path, doc)` pair appends a batch of chunks to the
chunk table and their encodings to the index, in the same order, within the
same operation (or appends nothing when the file is skipped). -/
theorem process_document_appends (norm : PyStr → PyStr)
    (hashF mtimeF : PyStr → PyStr) (now : PyStr) (enc : PyStr → Vec)
    (chunkSize : Nat) (fp doc : PyStr) (st st' : SysState)
    (h : process_document norm hashF mtimeF now enc chunkSize fp doc st =
      some st') :
    ∃ cs : List PyStr,
      st'.index = st.index ++ cs.map enc ∧
      st'.documents = st.documents ++ cs := by
  by_cases h1 : (pyStrip doc).isEmpty
  · simp only [process_document, h1, if_true] at h
    have := Option.some.inj h
    subst this
    exact ⟨[], by simp, by simp⟩
  · by_cases h2 : (chunkText doc chunkSize).isEmpty
    · simp only [process_document, h1, h2, Bool.false_eq_true, if_false,
        if_true] at h
      have := Option.some.inj h
      subst this
      exact ⟨[], by simp, by simp⟩
    · simp only [process_document, h1, h2, Bool.false_eq_true, if_false] at h
      cases hse : store_embeddings fp
          ((chunkText doc chunkSize).zip ((chunkText doc chunkSize).map enc))
          (store_document norm (hashF (norm fp)) (mtimeF (norm fp)) now fp
            (chunkText doc chunkSize) st.store) with
      | none => rw [hse] at h; simp at h
      | some s2 =>
        rw [hse] at h
        simp only [Option.some.injEq] at h
        subst h
        exact ⟨chunkText doc chunkSize, by simp, by simp⟩

/-- A completed `add_documents` call appends a batch of chunks to the chunk
table and their encodings to the index, in the same order. -/
theorem add_documents_appends (norm : PyStr → PyStr)
    (hashF mtimeF : PyStr → PyStr) (now : PyStr) (enc : PyStr → Vec)
    (chunkSize : Nat) :
    ∀ (docs : List (PyStr × PyStr)) (st st' : SysState),
      add_documents norm hashF mtimeF now enc chunkSize docs st = some st' →
      ∃ newChunks : List PyStr,
        st'.index = st.index ++ newChunks.map enc ∧
        st'.documents = st.documents ++ newChunks := by
  intro docs
  induction docs with
  | nil =>
    intro st st' h
    have := Option.some.inj h
    subst this
    exact ⟨[], by simp, by simp⟩
  | cons pr rest ih =>
    intro st st' h
    obtain ⟨fp, d⟩ := pr
    simp only [add_documents] at h
    cases hp : process_document norm hashF mtimeF now enc chunkSize fp d st with
    | none => rw [hp] at h; simp at h
    | some st1 =>
      rw [hp] at h
      simp only at h
      obtain ⟨cs1, hi1, hd1⟩ :=
        process_document_appends norm hashF mtimeF now enc chunkSize fp d st st1 hp
      obtain ⟨cs2, hi2, hd2⟩ := ih st1 st' h
      refine ⟨cs1 ++ cs2, ?_, ?_⟩
      · rw [hi2, hi1]
        simp [List.map_append]
      · rw [hd2, hd1]
        simp

/-- C2: after every completed `add_documents` call and after every completed
`_load_existing_embeddings` call, the in-memory chunk table and the FAISS
index have equal length; each operation appends paired batches — one vector
per chunk, in the same order, within the same operation — so index row `i`
corresponds to chunk-table position `i`. -/
theorem index_chunk_table_alignment (norm : PyStr → PyStr)
    (hashF mtimeF : PyStr → PyStr) (now : PyStr) (enc : PyStr → Vec)
    (chunkSize : Nat) (docs : List (PyStr × PyStr)) (st st' : SysState)
    (hlen : st.index.length = st.documents.length)
    (hrun : add_documents norm hashF mtimeF now enc chunkSize docs st =
      some st') :
    (∃ newChunks : List PyStr,
        st'.index = st.index ++ newChunks.map enc ∧
        st'.documents = st.documents ++ newChunks) ∧
    st'.index.length = st'.documents.length ∧
    (∃ vecs texts, vecs.length = texts.length ∧
        (load_existing_embeddings st).index = st.index ++ vecs ∧
        (load_existing_embeddings st).documents = st.documents ++ texts) ∧
    (load_existing_embeddings st).index.length =
      (load_existing_embeddings st).documents.length := by
  obtain ⟨nc, hi, hd⟩ :=
    add_documents_appends norm hashF mtimeF now enc chunkSize docs st st' hrun
  have hload : ∃ vecs texts, vecs.length = texts.length ∧
      (load_existing_embeddings st).index = st.index ++ vecs ∧
      (load_existing_embeddings st).documents = st.documents ++ texts := by
    by_cases hc : (!(get_all_embeddings st.store).1.isEmpty &&
        !(get_all_embeddings st.store).2.isEmpty) = true
    · refine ⟨(get_all_embeddings st.store).1, (get_all_embeddings st.store).2,
        by simp [get_all_embeddings], ?_, ?_⟩
      · simp [load_existing_embeddings, hc]
      · simp [load_existing_embeddings, hc]
    · rw [Bool.not_eq_true] at hc
      refine ⟨[], [], rfl, ?_, ?_⟩
      · simp [load_existing_embeddings, hc]
      · simp [load_existing_embeddings, hc]
  refine ⟨⟨nc, hi, hd⟩, ?_, hload, ?_⟩
  · rw [hi, hd]
    simp [hlen]
  · obtain ⟨vecs, texts, hvt, hiv, hdt⟩ := hload
    rw [hiv, hdt]
    simp [hlen, hvt]

/-- Witness for C2 at a concrete run: ingesting one document into a fresh
engine leaves the chunk table and the index the same length. -/
theorem index_chunk_table_alignment_witness :
    ingestedState.index.length = ingestedState.documents.length :=
  (index_chunk_table_alignment id (fun _ => []) (fun _ => []) []
    (fun _ => [0]) 512 [(("a".data), ("ab".data))] freshState ingestedState
    rfl (by decide)).2.1
